import Mathlib

/-!
Verification of the expense-reconciliation core of `app.py`.

Each Python helper is embedded as an executable Lean definition over
`String` / `List Char`, with currency amounts as exact rationals and
machine-level I/O (Flask routes, pandas, PyMuPDF) out of scope.  The
theorems below settle the frozen claims about the reconciler, the name
resolver, the period extractor, the section locator and the transaction
extractor.
-/

namespace ExpenseAgent

/-! ### Character and string helpers (Python `str` methods, ASCII range) -/

/-- Python `\s` / `str.split()` whitespace, ASCII range. -/
def pyWs (c : Char) : Bool :=
  c = ' ' || c = '\t' || c = '\n' || c = '\r' || c = '\x0b' || c = '\x0c'

/-- Python `str.upper()` on the ASCII range. -/
def upStr (s : String) : String := String.mk (s.data.map Char.toUpper)

/-- Python `str.strip()` on a character list. -/
def stripChars (cs : List Char) : List Char :=
  ((cs.dropWhile pyWs).reverse.dropWhile pyWs).reverse

/-- Python `str.strip()`. -/
def stripStr (s : String) : String := String.mk (stripChars s.data)

/-- Worker for Python `str.split()`: `acc` is the current word, reversed. -/
def splitWsAux : List Char → List Char → List (List Char)
  | [], [] => []
  | [], acc => [acc.reverse]
  | c :: t, acc =>
    if pyWs c then
      match acc with
      | [] => splitWsAux t []
      | _ => acc.reverse :: splitWsAux t []
    else splitWsAux t (c :: acc)

/-- Python `str.split()` (split on whitespace runs, no empty words). -/
def splitWsChars (cs : List Char) : List (List Char) := splitWsAux cs []

/-- Python `str.split()` returning strings. -/
def splitWs (s : String) : List String := (splitWsChars s.data).map String.mk

/-- Python `' '.join(words)`. -/
def joinSpace : List (List Char) → List Char
  | [] => []
  | [w] => w
  | w :: ws => w ++ ' ' :: joinSpace ws

/-- Python `' '.join(s.split())`: collapse whitespace runs to single spaces. -/
def collapseWs (cs : List Char) : List Char := joinSpace (splitWsChars cs)

/-- Python `a.startswith(b)`. -/
def startsWith (a b : String) : Bool := b.data.isPrefixOf a.data

/-- Python `a in b` (contiguous substring test). -/
def infixAt : List Char → List Char → Bool
  | pat, [] => pat.isEmpty
  | pat, c :: t => pat.isPrefixOf (c :: t) || infixAt pat t

/-- Python `a in b` on strings. -/
def isInfixStr (a b : String) : Bool := infixAt a.data b.data

/-! ### Data model -/

/-- A statement transaction produced by the transaction extractor
(`extract_transactions_for_name`): date string, merchant text, amount. -/
structure PdfTxn where
  date : String
  merchant : String
  amount : ℚ
deriving DecidableEq, Repr

/-- A tabular record produced by the table normalizer
(`read_excel_transactions`): date string and amount. -/
structure TableRecord where
  date : String
  amount : ℚ
deriving DecidableEq, Repr

/-! ### Reconciler (`match_transactions`, app.py lines 203-214) -/

/-- The tolerance test of the matching loop:
`amt - 0.50 <= t['amount'] <= amt + 0.50` for a pool amount `a` and a
statement amount `x`. -/
def inTol (a x : ℚ) : Bool := decide (a - 1/2 ≤ x) && decide (x ≤ a + 1/2)

/-- `next((i for i, amt in enumerate(available) if amt - 0.50 <= t['amount'] <= amt + 0.50), None)`:
index of the first pool amount within tolerance of `x`. -/
def findTolIdx (x : ℚ) : List ℚ → Option Nat
  | [] => none
  | a :: t => if inTol a x then some 0 else (findTolIdx x t).map (· + 1)

/-- The loop of `match_transactions`, carrying the mutable state
`(matched, missing, available)`. -/
def matchLoop : List PdfTxn → List ℚ → Nat × List PdfTxn × List ℚ
  | [], pool => (0, [], pool)
  | t :: ts, pool =>
    match findTolIdx t.amount pool with
    | some i =>
      ((matchLoop ts (pool.eraseIdx i)).1 + 1, (matchLoop ts (pool.eraseIdx i)).2.1,
        (matchLoop ts (pool.eraseIdx i)).2.2)
    | none =>
      ((matchLoop ts pool).1, t :: (matchLoop ts pool).2.1, (matchLoop ts pool).2.2)

/-- `match_transactions(pdf_txns, excel_txns)`: the pool is
`[t['amount'] for t in excel_txns]`; returns `(matched, missing)`. -/
def match_transactions (pdfTxns : List PdfTxn) (excelTxns : List TableRecord) :
    Nat × List PdfTxn :=
  let r := matchLoop pdfTxns (excelTxns.map TableRecord.amount)
  (r.1, r.2.1)

/-- Spec-side description of "the first remaining tabular amount within
tolerance": index `i` is in range, hits the tolerance window, and every
earlier index misses it. -/
def isFirstTol (x : ℚ) (pool : List ℚ) (i : Nat) : Prop :=
  i < pool.length ∧ inTol (pool.getD i 0) x = true ∧
    ∀ j < i, inTol (pool.getD j 0) x = false

instance (x : ℚ) (pool : List ℚ) (i : Nat) : Decidable (isFirstTol x pool i) := by
  unfold isFirstTol; infer_instance

/-- `findTolIdx` computes exactly the first in-tolerance index. -/
theorem findTolIdx_eq_some_iff (x : ℚ) (pool : List ℚ) (i : Nat) :
    findTolIdx x pool = some i ↔ isFirstTol x pool i := by
  induction pool generalizing i with
  | nil => simp [findTolIdx, isFirstTol]
  | cons a t ih =>
    simp only [findTolIdx, isFirstTol]
    by_cases h : inTol a x = true
    · rw [if_pos h]
      simp only [Option.some.injEq]
      constructor
      · rintro rfl
        exact ⟨by simp, by simpa [List.getD_cons_zero] using h, by omega⟩
      · rintro ⟨-, -, hfirst⟩
        by_contra hne
        have h0 := hfirst 0 (by omega)
        simp [List.getD_cons_zero] at h0
        rw [h0] at h
        exact absurd h (by simp)
    · have hfalse : inTol a x = false := by
        cases hh : inTol a x
        · rfl
        · exact absurd hh h
      rw [if_neg h]
      rcases i with _ | k
      · simp only [Option.map_eq_some']
        constructor
        · rintro ⟨j, -, hj⟩; omega
        · rintro ⟨-, h0, -⟩
          simp [List.getD_cons_zero] at h0
          rw [h0] at hfalse
          exact absurd hfalse (by simp)
      · simp only [Option.map_eq_some']
        constructor
        · rintro ⟨j, hj, hjk⟩
          have hjeq : j = k := by omega
          rw [hjeq] at hj
          rcases (ih k).mp hj with ⟨hlen, hit, hfirst⟩
          refine ⟨by simp only [List.length_cons]; omega,
            by simpa [List.getD_cons_succ] using hit, ?_⟩
          intro m hm
          rcases m with _ | m
          · simpa [List.getD_cons_zero] using hfalse
          · simpa [List.getD_cons_succ] using hfirst m (by omega)
        · rintro ⟨hlen, hit, hfirst⟩
          refine ⟨k, (ih k).mpr ⟨?_, ?_, ?_⟩, rfl⟩
          · simp only [List.length_cons] at hlen; omega
          · simpa [List.getD_cons_succ] using hit
          · intro m hm
            simpa [List.getD_cons_succ] using hfirst (m + 1) (by omega)

theorem findTolIdx_some_lt {x : ℚ} {pool : List ℚ} {i : Nat}
    (h : findTolIdx x pool = some i) : i < pool.length :=
  ((findTolIdx_eq_some_iff x pool i).mp h).1

theorem findTolIdx_eq_none_iff (x : ℚ) (pool : List ℚ) :
    findTolIdx x pool = none ↔ ∀ j < pool.length, inTol (pool.getD j 0) x = false := by
  induction pool with
  | nil => simp [findTolIdx]
  | cons a t ih =>
    simp only [findTolIdx]
    by_cases h : inTol a x = true
    · rw [if_pos h]
      constructor
      · intro hc; exact absurd hc (by simp)
      · intro hall
        have h0 := hall 0 (by simp)
        simp [List.getD_cons_zero] at h0
        rw [h0] at h
        exact absurd h (by simp)
    · have hfalse : inTol a x = false := by
        cases hh : inTol a x
        · rfl
        · exact absurd hh h
      rw [if_neg h, Option.map_eq_none', ih]
      constructor
      · intro hall j hj
        rcases j with _ | j
        · simpa [List.getD_cons_zero] using hfalse
        · simp only [List.length_cons] at hj
          simpa [List.getD_cons_succ] using hall j (by omega)
      · intro hall j hj
        simpa [List.getD_cons_succ] using
          hall (j + 1) (by simp only [List.length_cons]; omega)

/-- Loop invariant: matched plus missing counts the processed transactions. -/
theorem matchLoop_count (ts : List PdfTxn) (pool : List ℚ) :
    (matchLoop ts pool).1 + (matchLoop ts pool).2.1.length = ts.length := by
  induction ts generalizing pool with
  | nil => simp [matchLoop]
  | cons t ts ih =>
    rcases h : findTolIdx t.amount pool with _ | i
    · simp only [matchLoop, h]
      have := ih pool
      simp only [List.length_cons]
      omega
    · simp only [matchLoop, h]
      have := ih (pool.eraseIdx i)
      simp only [List.length_cons]
      omega

/-- Loop invariant: the remaining pool is a sub-permutation of the initial
pool (each amount is consumed at most once). -/
theorem matchLoop_pool_subperm (ts : List PdfTxn) (pool : List ℚ) :
    (matchLoop ts pool).2.2.Subperm pool := by
  induction ts generalizing pool with
  | nil => exact List.Subperm.refl pool
  | cons t ts ih =>
    rcases h : findTolIdx t.amount pool with _ | i
    · simp only [matchLoop, h]
      exact ih pool
    · simp only [matchLoop, h]
      exact (ih (pool.eraseIdx i)).trans (List.eraseIdx_sublist pool i).subperm

/-- Loop invariant: matched count equals the number of pool amounts consumed. -/
theorem matchLoop_pool_len (ts : List PdfTxn) (pool : List ℚ) :
    (matchLoop ts pool).1 + (matchLoop ts pool).2.2.length = pool.length := by
  induction ts generalizing pool with
  | nil => simp [matchLoop]
  | cons t ts ih =>
    rcases h : findTolIdx t.amount pool with _ | i
    · simp only [matchLoop, h]
      exact ih pool
    · simp only [matchLoop, h]
      have hlt := findTolIdx_some_lt h
      have := ih (pool.eraseIdx i)
      have hlen : (pool.eraseIdx i).length = pool.length - 1 := by
        rw [List.length_eraseIdx]
        simp [hlt]
      omega

/-- C1: the reconciler processes statement transactions in order; each one
consumes the first remaining tabular amount `a` (in original tabular order)
with `a - 0.50 ≤ txn.amount ≤ a + 0.50` (both ends inclusive), incrementing
the matched count, and is appended to the missing list when no such amount
remains; tabular 10.00 matches statement 10.50 but not 10.51. -/
theorem reconciler_first_fit (t : PdfTxn) (ts : List PdfTxn) (excel : List TableRecord) :
    (∀ i, isFirstTol t.amount (excel.map TableRecord.amount) i →
      match_transactions (t :: ts) excel =
        ((matchLoop ts ((excel.map TableRecord.amount).eraseIdx i)).1 + 1,
          (matchLoop ts ((excel.map TableRecord.amount).eraseIdx i)).2.1))
    ∧ ((∀ j < (excel.map TableRecord.amount).length,
          inTol ((excel.map TableRecord.amount).getD j 0) t.amount = false) →
      match_transactions (t :: ts) excel =
        ((match_transactions ts excel).1, t :: (match_transactions ts excel).2))
    ∧ match_transactions [⟨"01/02/24", "M", 21/2⟩] [⟨"01/02/24", 10⟩] = (1, [])
    ∧ match_transactions [⟨"01/02/24", "M", 1051/100⟩] [⟨"01/02/24", 10⟩] =
        (0, [⟨"01/02/24", "M", 1051/100⟩]) := by
  refine ⟨?_, ?_, by norm_num [match_transactions, matchLoop, findTolIdx, inTol],
    by norm_num [match_transactions, matchLoop, findTolIdx, inTol]⟩
  · intro i hi
    have h := (findTolIdx_eq_some_iff t.amount (excel.map TableRecord.amount) i).mpr hi
    simp only [match_transactions, matchLoop, h]
  · intro hall
    have h := (findTolIdx_eq_none_iff t.amount (excel.map TableRecord.amount)).mpr hall
    simp only [match_transactions, matchLoop, h]

/-- C1 witness: concrete runs discharging all hypotheses.  With statement
amount 10.20 and pool `[9, 10]`, index 1 is the first in-tolerance amount;
with statement amount 20 and pool `[9, 10]`, no amount is in tolerance. -/
theorem reconciler_first_fit_witness :
    match_transactions [⟨"01/02/24", "M", 51/5⟩] [⟨"01/02/24", 9⟩, ⟨"01/02/24", 10⟩] =
      ((matchLoop [] (([9, 10] : List ℚ).eraseIdx 1)).1 + 1,
        (matchLoop [] (([9, 10] : List ℚ).eraseIdx 1)).2.1)
    ∧ match_transactions [⟨"01/02/24", "M", 20⟩] [⟨"01/02/24", 9⟩, ⟨"01/02/24", 10⟩] =
      ((match_transactions [] [⟨"01/02/24", 9⟩, ⟨"01/02/24", 10⟩]).1,
        ⟨"01/02/24", "M", 20⟩ ::
          (match_transactions [] [⟨"01/02/24", 9⟩, ⟨"01/02/24", 10⟩]).2) :=
  ⟨(reconciler_first_fit ⟨"01/02/24", "M", 51/5⟩ []
      [⟨"01/02/24", 9⟩, ⟨"01/02/24", 10⟩]).1 1
      (by
        refine ⟨by norm_num, by norm_num [inTol], ?_⟩
        intro j hj
        interval_cases j
        norm_num [inTol]),
   (reconciler_first_fit ⟨"01/02/24", "M", 20⟩ []
      [⟨"01/02/24", 9⟩, ⟨"01/02/24", 10⟩]).2.1
      (by
        intro j hj
        simp at hj
        interval_cases j <;> norm_num [inTol])⟩

/-- C2: matched count plus the missing-list length equals the number of
statement transactions, and no tabular amount is consumed more than once:
the leftover pool is a sub-permutation of the original pool, and the number
of consumed pool entries equals the matched count. -/
theorem reconciler_conservation (txns : List PdfTxn) (excel : List TableRecord) :
    (match_transactions txns excel).1 + (match_transactions txns excel).2.length
        = txns.length
    ∧ (matchLoop txns (excel.map TableRecord.amount)).2.2.Subperm
        (excel.map TableRecord.amount)
    ∧ (match_transactions txns excel).1 +
        (matchLoop txns (excel.map TableRecord.amount)).2.2.length
        = (excel.map TableRecord.amount).length :=
  ⟨matchLoop_count txns (excel.map TableRecord.amount),
   matchLoop_pool_subperm txns (excel.map TableRecord.amount),
   matchLoop_pool_len txns (excel.map TableRecord.amount)⟩

/-! ### Name resolver (`select_target_section_name`, app.py lines 73-120) -/

/-- Normalization applied to every available section name:
`name.strip().upper()`. -/
def normName (s : String) : String := upStr (stripStr s)

/-- Token set of a normalized name: `set(name_norm.split())`. -/
def tokensOf (s : String) : Finset String := (splitWs s).toFinset

/-- One scoring pair test:
`t_token.startswith(n_token) or n_token.startswith(t_token)`. -/
def prefPair (t n : String) : Bool := startsWith t n || startsWith n t

/-- The scoring block of `select_target_section_name`: +10 per shared token,
+5 when either normalized string contains the other, +2 per in-common-prefix
pair of tokens drawn from the two token sets. -/
def score (targetNorm nameNorm : String) : Nat :=
  10 * ((tokensOf targetNorm) ∩ (tokensOf nameNorm)).card
  + (if isInfixStr targetNorm nameNorm || isInfixStr nameNorm targetNorm then 5 else 0)
  + 2 * ∑ t ∈ tokensOf targetNorm, ∑ n ∈ tokensOf nameNorm, (if prefPair t n then 1 else 0)

/-- Python `max(candidates, key=lambda x: x[0])`: first element of maximal
score under left-to-right iteration. -/
def maxByFirst : List (Nat × String) → Option (Nat × String)
  | [] => none
  | c :: t => some (t.foldl (fun b x => if x.1 > b.1 then x else b) c)

/-- `select_target_section_name(target, available)`. -/
def select_target_section_name (target : String) (available : List (String × Nat)) :
    Option String :=
  match available.find? (fun e => normName e.1 == upStr target) with
  | some e => some e.1
  | none =>
    match maxByFirst (available.filterMap (fun e =>
        if 0 < score (upStr target) (normName e.1) then
          some (score (upStr target) (normName e.1), e.1)
        else none)) with
    | some c => some c.2
    | none =>
      match available with
      | [] => none
      | e :: _ => some e.1

/-- C3: if any section name normalizes (strip + uppercase) to the uppercased
target, the resolver returns a section name with exactly that normalization —
the exact match is taken before any scoring happens, so no score can override
it. -/
theorem resolver_exact_match_dominates (target : String) (available : List (String × Nat))
    (h : ∃ e ∈ available, normName e.1 = upStr target) :
    ∃ nm, select_target_section_name target available = some nm ∧
      normName nm = upStr target := by
  have hsome : (available.find? (fun e => normName e.1 == upStr target)).isSome := by
    rw [List.find?_isSome]
    rcases h with ⟨e, he, hn⟩
    exact ⟨e, he, by simp [hn]⟩
  rcases Option.isSome_iff_exists.mp hsome with ⟨e, hfind⟩
  have hp := List.find?_some hfind
  simp only [beq_iff_eq] at hp
  refine ⟨e.1, ?_, hp⟩
  simp only [select_target_section_name, hfind]

/-- C3 witness: target `"AB"` and sections `[("ABX ABY", 0), (" AB ", 7)]`.
The first candidate scores 9 under the fuzzy scorer (substring +5, two
prefix pairs +4) but the second normalizes exactly to `"AB"` and wins. -/
theorem resolver_exact_match_dominates_witness :
    score (upStr "AB") (normName "ABX ABY") = 9 ∧
    ∃ nm, select_target_section_name "AB" [("ABX ABY", 0), (" AB ", 7)] = some nm ∧
      normName nm = upStr "AB" :=
  ⟨by decide,
   resolver_exact_match_dominates "AB" [("ABX ABY", 0), (" AB ", 7)]
     ⟨(" AB ", 7), by decide, by decide⟩⟩

/-- C4 counterexample: the claim counts the +2 prefix bonus once per pair of
token *occurrences* (no deduplication).  This reading of the score, applied
to target `"JOHN"` and candidate `"J J"`, gives 4; the code stores tokens in
sets, deduplicating the repeated `"J"`, and scores 2. -/
def scoreClaimPairs (targetNorm nameNorm : String) : Nat :=
  10 * ((tokensOf targetNorm) ∩ (tokensOf nameNorm)).card
  + (if isInfixStr targetNorm nameNorm || isInfixStr nameNorm targetNorm then 5 else 0)
  + 2 * ((splitWs targetNorm).map
      (fun t => ((splitWs nameNorm).filter (fun n => prefPair t n)).length)).sum

/-- C4 counterexample: on target `"JOHN"` and candidate `"J J"` the code's
score is 2 (one deduplicated pair) while the claim's occurrence-counting
reading demands 4 (two pairs). -/
theorem resolver_prefix_bonus_not_occurrence_counted :
    score "JOHN" "J J" = 2 ∧ scoreClaimPairs "JOHN" "J J" = 4 ∧
      score "JOHN" "J J" ≠ scoreClaimPairs "JOHN" "J J" := by
  refine ⟨by decide, by decide, by decide⟩

/-- Amended spec-side score: the +2 bonus counts pairs of *distinct* tokens,
one from each deduplicated token set, where either is a prefix of the other. -/
def scoreSetPairs (targetNorm nameNorm : String) : Nat :=
  10 * ((tokensOf targetNorm) ∩ (tokensOf nameNorm)).card
  + (if isInfixStr targetNorm nameNorm || isInfixStr nameNorm targetNorm then 5 else 0)
  + 2 * (((tokensOf targetNorm) ×ˢ (tokensOf nameNorm)).filter
      (fun p => prefPair p.1 p.2)).card

/-- C4 amended: the scorer awards +2 for every pair of distinct tokens
(one from the target's token set, one from the candidate's) where either is
a prefix of the other; repeated occurrences of a token are deduplicated, but
one token still accumulates one +2 per distinct partner token. -/
theorem resolver_prefix_bonus_setwise (t c : String) :
    score t c = scoreSetPairs t c := by
  unfold score scoreSetPairs
  congr 1
  rw [Finset.card_filter, Finset.sum_product]

/-- C5: the resolver returns an absent result precisely on an empty section
list, and with no exact match and all-zero scores it falls back to the first
section of the (document-ordered) list. -/
theorem resolver_total_with_fallback (target : String) (available : List (String × Nat)) :
    (select_target_section_name target available = none ↔ available = [])
    ∧ ((∀ e ∈ available, normName e.1 ≠ upStr target ∧
          score (upStr target) (normName e.1) = 0) →
        select_target_section_name target available = available.head?.map Prod.fst) := by
  constructor
  · constructor
    · intro hnone
      by_contra hne
      rcases available with _ | ⟨e, t⟩
      · exact hne rfl
      · unfold select_target_section_name at hnone
        rcases hf : (e :: t).find? (fun x => normName x.1 == upStr target) with _ | f
        · rw [hf] at hnone
          simp only [] at hnone
          rcases hm : maxByFirst ((e :: t).filterMap (fun x =>
              if 0 < score (upStr target) (normName x.1) then
                some (score (upStr target) (normName x.1), x.1)
              else none)) with _ | c
          · rw [hm] at hnone
            exact Option.noConfusion hnone
          · rw [hm] at hnone
            exact Option.noConfusion hnone
        · rw [hf] at hnone
          exact Option.noConfusion hnone
    · rintro rfl
      rfl
  · intro hall
    have hfind : available.find? (fun e => normName e.1 == upStr target) = none := by
      rw [List.find?_eq_none]
      intro e he
      simp only [beq_iff_eq]
      exact (hall e he).1
    have hcands : available.filterMap (fun e =>
        if 0 < score (upStr target) (normName e.1) then
          some (score (upStr target) (normName e.1), e.1)
        else none) = [] := by
      rw [List.filterMap_eq_nil_iff]
      intro e he
      rw [if_neg]
      rw [(hall e he).2]
      omega
    unfold select_target_section_name
    rw [hfind, hcands]
    rcases available with _ | ⟨e, t⟩
    · rfl
    · rfl

/-- C5 witness: with target `"ZZ"` and single section `("QA", 3)` nothing
matches and nothing scores, so the resolver falls back to `"QA"`; the
emptiness equivalence is instantiated at the empty list. -/
theorem resolver_total_with_fallback_witness :
    select_target_section_name "ZZ" [("QA", 3)] = [("QA", 3)].head?.map Prod.fst
    ∧ (select_target_section_name "ZZ" ([] : List (String × Nat)) = none ↔
        ([] : List (String × Nat)) = []) :=
  ⟨(resolver_total_with_fallback "ZZ" [("QA", 3)]).2 (by decide),
   (resolver_total_with_fallback "ZZ" []).1⟩

/-! ### Generic leftmost scan, the semantics of `re.search` -/

/-- Leftmost-match scan: try `f` at positions `i, i+1, ...` (`fuel` many) and
return the first hit.  This is the search order of `re.search`/`re.finditer`
for patterns whose match at a position is position-local. -/
def scanFirst {α : Type} (f : Nat → Option α) : Nat → Nat → Option α
  | _, 0 => none
  | i, fuel + 1 =>
    match f i with
    | some x => some x
    | none => scanFirst f (i + 1) fuel

theorem scanFirst_eq_none_iff {α : Type} (f : Nat → Option α) (i fuel : Nat) :
    scanFirst f i fuel = none ↔ ∀ j, i ≤ j → j < i + fuel → f j = none := by
  induction fuel generalizing i with
  | zero => simp [scanFirst]; omega
  | succ fuel ih =>
    simp only [scanFirst]
    rcases hf : f i with _ | x
    · simp only []
      rw [ih]
      constructor
      · intro hall j hij hjf
        rcases Nat.eq_or_lt_of_le hij with rfl | hlt
        · exact hf
        · exact hall j hlt (by omega)
      · intro hall j hij hjf
        exact hall j (by omega) (by omega)
    · simp only []
      constructor
      · intro hc; exact Option.noConfusion hc
      · intro hall
        have := hall i (le_refl i) (by omega)
        rw [hf] at this
        exact Option.noConfusion this

theorem scanFirst_eq_some {α : Type} {f : Nat → Option α} {i fuel : Nat} {x : α}
    (h : scanFirst f i fuel = some x) :
    ∃ j, i ≤ j ∧ j < i + fuel ∧ f j = some x ∧ ∀ k, i ≤ k → k < j → f k = none := by
  induction fuel generalizing i with
  | zero => exact Option.noConfusion h
  | succ fuel ih =>
    simp only [scanFirst] at h
    rcases hf : f i with _ | y
    · rw [hf] at h
      simp only [] at h
      rcases ih h with ⟨j, hij, hjf, hfj, hfirst⟩
      refine ⟨j, by omega, by omega, hfj, ?_⟩
      intro k hik hkj
      rcases Nat.eq_or_lt_of_le hik with rfl | hlt
      · exact hf
      · exact hfirst k hlt hkj
    · rw [hf] at h
      simp only [Option.some.injEq] at h
      subst h
      exact ⟨i, le_refl i, by omega, hf, by omega⟩

/-- Conversely, the scan from 0 returns the leftmost hit. -/
theorem scanFirst_leftmost {α : Type} {f : Nat → Option α} {fuel j : Nat} {x : α}
    (hj : f j = some x) (hfirst : ∀ k < j, f k = none) (hjf : j < fuel) :
    scanFirst f 0 fuel = some x := by
  rcases hs : scanFirst f 0 fuel with _ | y
  · have := (scanFirst_eq_none_iff f 0 fuel).mp hs j (by omega) (by omega)
    rw [this] at hj
    exact Option.noConfusion hj
  · rcases scanFirst_eq_some hs with ⟨j', -, -, hfj', hfirst'⟩
    have hjj : j' = j := by
      rcases Nat.lt_trichotomy j' j with h | h | h
      · rw [hfirst j' h] at hfj'
        exact Option.noConfusion hfj'
      · exact h
      · rw [hfirst' j (by omega) h] at hj
        exact Option.noConfusion hj
    rw [hjj] at hfj'
    rw [hfj'] at hj
    exact hj

/-! ### Calendar dates (`datetime.date`, proleptic Gregorian) -/

/-- A calendar date as built by `datetime.strptime(..., "%m/%d/%y").date()`. -/
structure PyDate where
  year : Int
  month : Nat
  day : Nat
deriving DecidableEq, Repr

/-- Gregorian leap-year rule. -/
def isLeap (y : Int) : Bool := y % 4 = 0 && (y % 100 != 0 || y % 400 = 0)

/-- Length of a month, as validated by the `datetime.date` constructor. -/
def daysInMonth (y : Int) (m : Nat) : Nat :=
  if m = 2 then (if isLeap y then 29 else 28)
  else if m = 4 || m = 6 || m = 9 || m = 11 then 30 else 31

/-- Days since 1970-01-01 of a proleptic Gregorian date (civil-from-date). -/
def toDays (d : PyDate) : Int :=
  let y : Int := if d.month ≤ 2 then d.year - 1 else d.year
  let era : Int := y.fdiv 400
  let yoe : Int := y - era * 400
  let mp : Int := if 2 < d.month then (d.month : Int) - 3 else (d.month : Int) + 9
  let doy : Int := (153 * mp + 2).fdiv 5 + (d.day : Int) - 1
  let doe : Int := yoe * 365 + yoe.fdiv 4 - yoe.fdiv 100 + doy
  era * 146097 + doe - 719468

/-- Proleptic Gregorian date from days since 1970-01-01 (date-from-civil). -/
def fromDays (z0 : Int) : PyDate :=
  let z := z0 + 719468
  let era := z.fdiv 146097
  let doe := z - era * 146097
  let yoe := (doe - doe.fdiv 1460 + doe.fdiv 36524 - doe.fdiv 146096).fdiv 365
  let y := yoe + era * 400
  let doy := doe - (365 * yoe + yoe.fdiv 4 - yoe.fdiv 100)
  let mp := (5 * doy + 2).fdiv 153
  let dd := doy - (153 * mp + 2).fdiv 5 + 1
  let m := if mp < 10 then mp + 3 else mp - 9
  { year := if m ≤ 2 then y + 1 else y, month := m.toNat, day := dd.toNat }

/-- `end - timedelta(days=n)`. -/
def dateSubDays (d : PyDate) (n : Nat) : PyDate := fromDays (toDays d - (n : Int))

/-- `datetime.strptime(s, "%m/%d/%y").date()` on an `mm/dd/yy` digit string:
month must be 1-12, the two-digit year maps 00-68 to 2000-2068 and 69-99 to
1969-1999, and the day must exist in the resulting month; otherwise
`strptime`/`date` raises (`none`). -/
def strptime_mdy (s : String) : Option PyDate :=
  match s.data with
  | [m1, m2, '/', d1, d2, '/', y1, y2] =>
    if m1.isDigit && m2.isDigit && d1.isDigit && d2.isDigit && y1.isDigit && y2.isDigit then
      let mo := (m1.toNat - 48) * 10 + (m2.toNat - 48)
      let da := (d1.toNat - 48) * 10 + (d2.toNat - 48)
      let yy := (y1.toNat - 48) * 10 + (y2.toNat - 48)
      let yr : Int := if yy ≤ 68 then 2000 + yy else 1900 + yy
      if 1 ≤ mo && mo ≤ 12 && 1 ≤ da && da ≤ daysInMonth yr mo then
        some ⟨yr, mo, da⟩
      else none
    else none
  | _ => none

/-! ### Period extractor (`parse_statement_period`, app.py lines 62-67) -/

/-- The two failure modes of `parse_statement_period`: the explicit
`ValueError("Closing Date not found")` and the `ValueError` that
`datetime.strptime` raises on digits that are not a real date. -/
inductive PeriodError where
  | periodNotFound
  | dateParseError
deriving DecidableEq, Repr

instance {ε α : Type} [DecidableEq ε] [DecidableEq α] : DecidableEq (Except ε α) :=
  fun a b =>
    match a, b with
    | .error e, .error f =>
      if h : e = f then .isTrue (congrArg Except.error h)
      else .isFalse (fun hc => h (Except.error.inj hc))
    | .ok x, .ok y =>
      if h : x = y then .isTrue (congrArg Except.ok h)
      else .isFalse (fun hc => h (Except.ok.inj hc))
    | .error _, .ok _ => .isFalse (fun hc => Except.noConfusion hc)
    | .ok _, .error _ => .isFalse (fun hc => Except.noConfusion hc)

/-- Match of the pattern `Closing Date\s*(\d{2}/\d{2}/\d{2})` at offset `i`:
the literal anchor, then greedy whitespace, then the captured digit group
(returned). -/
def closingGroupAt (cs : List Char) (i : Nat) : Option String :=
  let t := cs.drop i
  if ("Closing Date".data).isPrefixOf t then
    match (t.drop 12).dropWhile pyWs with
    | m1 :: m2 :: s1 :: d1 :: d2 :: s2 :: y1 :: y2 :: _ =>
      if m1.isDigit && m2.isDigit && s1 = '/' && d1.isDigit && d2.isDigit &&
          s2 = '/' && y1.isDigit && y2.isDigit then
        some (String.mk [m1, m2, s1, d1, d2, s2, y1, y2])
      else none
    | _ => none
  else none

/-- Decidable form of "the anchor pattern occurs at offset `i`". -/
def closingMatchAt (cs : List Char) (i : Nat) : Bool := (closingGroupAt cs i).isSome

/-- Past the end of the text the pattern cannot match. -/
theorem closingGroupAt_out_of_range {cs : List Char} {i : Nat}
    (h : cs.length ≤ i) : closingGroupAt cs i = none := by
  unfold closingGroupAt
  rw [List.drop_eq_nil_of_le h]
  rfl

/-- `parse_statement_period(pdf_text)`: leftmost match of
`Closing Date\s*(\d{2}/\d{2}/\d{2})`, then `strptime`, then
`(end - timedelta(days=30), end)`. -/
def parse_statement_period (s : String) : Except PeriodError (PyDate × PyDate) :=
  match scanFirst (closingGroupAt s.data) 0 (s.data.length + 1) with
  | none => .error .periodNotFound
  | some g =>
    match strptime_mdy g with
    | none => .error .dateParseError
    | some d => .ok (dateSubDays d 30, d)

/-- C6 counterexample: `"Closing Date 13/01/24"` carries the anchor followed
by a two-digit `mm/dd/yy` pattern, so the claim demands a returned period,
but the code raises the strptime error (month 13), which is also not the
`PeriodNotFound` failure. -/
theorem period_extractor_claim_counterexample :
    closingMatchAt ("Closing Date 13/01/24").data 0 = true
    ∧ parse_statement_period "Closing Date 13/01/24" = .error .dateParseError
    ∧ parse_statement_period "Closing Date 13/01/24" ≠ .error .periodNotFound := by
  refine ⟨by decide, by decide, by decide⟩

/-- C6 amended: `parse_statement_period` fails with `PeriodNotFound` exactly
when the anchor-plus-digit pattern occurs nowhere; when it occurs, the
leftmost captured digit group is parsed with `%m/%d/%y` — an invalid
calendar date propagates the strptime failure instead of a period — and a
valid date `end` yields `(end - 30 days, end)`; closing date 03/15/24 gives
the period (02/14/24, 03/15/24). -/
theorem period_extractor_behavior (s : String) :
    (parse_statement_period s = .error .periodNotFound ↔
      ∀ j, closingGroupAt s.data j = none)
    ∧ (∀ pr, parse_statement_period s = .ok pr →
        ∃ j g, closingGroupAt s.data j = some g ∧
          (∀ k < j, closingGroupAt s.data k = none) ∧
          strptime_mdy g = some pr.2 ∧ pr.1 = dateSubDays pr.2 30)
    ∧ (∀ j g, closingGroupAt s.data j = some g →
        (∀ k < j, closingGroupAt s.data k = none) →
        parse_statement_period s =
          match strptime_mdy g with
          | some d => .ok (dateSubDays d 30, d)
          | none => .error .dateParseError)
    ∧ parse_statement_period "Closing Date 03/15/24" =
        .ok (⟨2024, 2, 14⟩, ⟨2024, 3, 15⟩) := by
  refine ⟨?_, ?_, ?_, by decide⟩
  · rcases hs : scanFirst (closingGroupAt s.data) 0 (s.data.length + 1) with _ | g
    · simp only [parse_statement_period, hs]
      constructor
      · intro _ j
        by_cases hj : j < s.data.length + 1
        · exact (scanFirst_eq_none_iff (closingGroupAt s.data) 0 (s.data.length + 1)).mp
            hs j (by omega) (by omega)
        · exact closingGroupAt_out_of_range (by omega)
      · intro _
        trivial
    · simp only [parse_statement_period, hs]
      rcases scanFirst_eq_some hs with ⟨j, -, -, hfj, -⟩
      constructor
      · intro hc
        rcases hg : strptime_mdy g with _ | d
        · simp only [hg] at hc
          exact PeriodError.noConfusion (Except.error.inj hc)
        · simp only [hg] at hc
          exact Except.noConfusion hc
      · intro hall
        rw [hall j] at hfj
        exact Option.noConfusion hfj
  · intro pr hok
    rcases hs : scanFirst (closingGroupAt s.data) 0 (s.data.length + 1) with _ | g
    · simp only [parse_statement_period, hs] at hok
      exact Except.noConfusion hok
    · simp only [parse_statement_period, hs] at hok
      rcases hg : strptime_mdy g with _ | d
      · simp only [hg] at hok
        exact Except.noConfusion hok
      · simp only [hg, Except.ok.injEq] at hok
        rcases scanFirst_eq_some hs with ⟨j, -, -, hfj, hfirst⟩
        refine ⟨j, g, hfj, ?_, ?_, ?_⟩
        · intro k hk
          exact hfirst k (by omega) hk
        · rw [← hok]
          exact hg
        · rw [← hok]
  · intro j g hjg hfirst
    have hjlen : j < s.data.length + 1 := by
      by_contra hge
      rw [closingGroupAt_out_of_range (by omega)] at hjg
      exact Option.noConfusion hjg
    have hs := scanFirst_leftmost hjg (fun k hk => hfirst k hk) hjlen
    simp only [parse_statement_period, hs]
    rcases hg : strptime_mdy g with _ | d
    · rfl
    · rfl

/-- C6 witness: both success-side clauses instantiated on the concrete
statement text: the `.ok` result exhibits a leftmost anchor match parsed to
03/15/24, and the leftmost match at offset 0 forces the `.ok` result. -/
theorem period_extractor_behavior_witness :
    (∃ j g, closingGroupAt ("Closing Date 03/15/24").data j = some g ∧
      (∀ k < j, closingGroupAt ("Closing Date 03/15/24").data k = none) ∧
      strptime_mdy g = some (⟨2024, 3, 15⟩ : PyDate) ∧
      (⟨2024, 2, 14⟩ : PyDate) = dateSubDays ⟨2024, 3, 15⟩ 30)
    ∧ parse_statement_period "Closing Date 03/15/24" =
        (match strptime_mdy "03/15/24" with
         | some d => .ok (dateSubDays d 30, d)
         | none => .error .dateParseError) :=
  ⟨(period_extractor_behavior "Closing Date 03/15/24").2.1
      (⟨2024, 2, 14⟩, ⟨2024, 3, 15⟩) (by decide),
   (period_extractor_behavior "Closing Date 03/15/24").2.2.1 0 "03/15/24"
      (by decide) (fun k hk => absurd hk (by omega))⟩

/-! ### Section locator (`find_cardholder_sections`, app.py lines 69-71) -/

/-- The `[A-Z]` class. -/
def isUpperAZ (c : Char) : Bool := 'A' ≤ c && c ≤ 'Z'

/-- The `[A-Z ]` class of the name group. -/
def nameChar (c : Char) : Bool := isUpperAZ c || c = ' '

/-- After the name group, the tail `\s+Card Ending` of the pattern:
a nonempty whitespace run followed by the literal.  Returns the number of
characters it consumes. -/
def wsLitLen (r : List Char) : Option Nat :=
  if (r.takeWhile pyWs).length != 0 &&
      ("Card Ending".data).isPrefixOf (r.dropWhile pyWs) then
    some ((r.takeWhile pyWs).length + 11)
  else none

/-- Lazy `[A-Z ]{1,80}?` followed by `\s+Card Ending`: smallest extension of
1 to `budget` name characters whose remainder matches `wsLitLen`; returns
(extension, extension length plus consumed tail length). -/
def extSearch : List Char → Nat → Option (List Char × Nat)
  | _, 0 => none
  | [], _ + 1 => none
  | c :: r, budget + 1 =>
    if nameChar c then
      match wsLitLen r with
      | some L => some ([c], 1 + L)
      | none =>
        match extSearch r budget with
        | some (g, L) => some (c :: g, 1 + L)
        | none => none
    else none

/-- Match of `([A-Z][A-Z ]{1,80}?)\s+Card Ending` at the head of `t`:
returns (raw captured group, full match length). -/
def matchSection : List Char → Option (List Char × Nat)
  | [] => none
  | c :: r =>
    if isUpperAZ c then
      match extSearch r 80 with
      | some (g, L) => some (c :: g, 1 + L)
      | none => none
    else none

/-- `re.finditer` over the document: leftmost matches, resuming after each
match end; every hit is collected as `(group(1).strip(), m.start())`. -/
def scanSections (cs : List Char) : Nat → Nat → List (String × Nat)
  | _, 0 => []
  | pos, fuel + 1 =>
    match matchSection (cs.drop pos) with
    | some (g, L) => (stripStr (String.mk g), pos) :: scanSections cs (pos + L) fuel
    | none => scanSections cs (pos + 1) fuel

/-- Ascending comparison on the recorded offset, the key of
`sorted(sections, key=lambda x: x[1])`. -/
def posLe (a b : String × Nat) : Prop := a.2 ≤ b.2

instance : DecidableRel posLe := fun a b => Nat.decLe a.2 b.2

instance : IsTotal (String × Nat) posLe := ⟨fun a b => Nat.le_total a.2 b.2⟩

instance : IsTrans (String × Nat) posLe := ⟨fun _ _ _ => Nat.le_trans⟩

/-- `find_cardholder_sections(pdf_text)`: collect all matches, then the
stable ascending sort by offset. -/
def find_cardholder_sections (s : String) : List (String × Nat) :=
  List.insertionSort posLe (scanSections s.data 0 (s.data.length + 1))

/-- The frozen claim's matching condition at offset `p`: a token of 1 to 80
letters/spaces immediately followed by the literal `"Card Ending"`. -/
def claimTokenMatchAt (cs : List Char) (p : Nat) : Bool :=
  (List.range 80).any (fun l0 =>
    l0 + 1 ≤ (cs.drop p).length && ((cs.drop p).take (l0 + 1)).all nameChar &&
      ("Card Ending".data).isPrefixOf ((cs.drop p).drop (l0 + 1)))

/-- The amended matching condition at offset `p`: an uppercase letter, then
1 to 80 letters/spaces, then mandatory whitespace, then `"Card Ending"`. -/
def amendedMatchAt (cs : List Char) (p : Nat) : Bool :=
  match cs.drop p with
  | [] => false
  | c :: r =>
    isUpperAZ c && (List.range 80).any (fun k0 =>
      k0 + 1 ≤ r.length && (r.take (k0 + 1)).all nameChar &&
        (wsLitLen (r.drop (k0 + 1))).isSome)

theorem extSearch_isSome_iff (r : List Char) (b : Nat) :
    (extSearch r b).isSome = true ↔
      ∃ k, 1 ≤ k ∧ k ≤ b ∧ k ≤ r.length ∧ (r.take k).all nameChar = true ∧
        (wsLitLen (r.drop k)).isSome = true := by
  induction b generalizing r with
  | zero =>
    simp only [extSearch]
    constructor
    · intro hc; exact absurd hc (by simp)
    · rintro ⟨k, hk1, hkb, -, -, -⟩; omega
  | succ b ih =>
    rcases r with _ | ⟨c, r⟩
    · simp only [extSearch]
      constructor
      · intro hc; exact absurd hc (by simp)
      · rintro ⟨k, hk1, -, hkl, -, -⟩
        simp only [List.length_nil] at hkl; omega
    · simp only [extSearch]
      by_cases hc : nameChar c = true
      · rw [if_pos hc]
        rcases hw : wsLitLen r with _ | L
        · simp only []
          rcases hes : extSearch r b with _ | ⟨g, L⟩
          · simp only []
            constructor
            · intro habs; exact absurd habs (by simp)
            · rintro ⟨k, hk1, hkb, hkl, hall, hws⟩
              rcases k with _ | k
              · omega
              · rcases k with _ | k
                · simp only [List.drop_succ_cons, List.drop_zero] at hws
                  rw [hw] at hws
                  exact absurd hws (by simp)
                · have hsome : (extSearch r b).isSome = true := by
                    rw [ih r]
                    refine ⟨k + 1, by omega, by omega, ?_, ?_, ?_⟩
                    · simp only [List.length_cons] at hkl; omega
                    · simp only [List.take_succ_cons, List.all_cons, Bool.and_eq_true] at hall
                      exact hall.2
                    · simpa only [List.drop_succ_cons] using hws
                  rw [hes] at hsome
                  exact absurd hsome (by simp)
          · simp only []
            constructor
            · rintro -
              have hsome : (extSearch r b).isSome = true := by rw [hes]; rfl
              rcases (ih r).mp hsome with ⟨k, hk1, hkb, hkl, hall, hws⟩
              refine ⟨k + 1, by omega, by omega, by simp only [List.length_cons]; omega, ?_, ?_⟩
              · simp only [List.take_succ_cons, List.all_cons, Bool.and_eq_true]
                exact ⟨hc, hall⟩
              · simpa only [List.drop_succ_cons] using hws
            · rintro -; rfl
        · simp only []
          constructor
          · rintro -
            refine ⟨1, le_refl 1, by omega, by simp, ?_, ?_⟩
            · simp [List.take_one, hc]
            · simp only [List.drop_one, List.tail_cons, hw]; rfl
          · rintro -; rfl
      · rw [if_neg hc]
        constructor
        · intro habs; exact absurd habs (by simp)
        · rintro ⟨k, hk1, -, -, hall, -⟩
          rcases k with _ | k
          · omega
          · simp only [List.take_succ_cons, List.all_cons, Bool.and_eq_true] at hall
            exact absurd hall.1 hc

/-- The lazy scanner finds a match at the head of `t` exactly when the
amended pattern holds there. -/
theorem matchSection_isSome_iff (cs : List Char) (p : Nat) :
    (matchSection (cs.drop p)).isSome = amendedMatchAt cs p := by
  unfold matchSection amendedMatchAt
  rcases ht : cs.drop p with _ | ⟨c, r⟩
  · rfl
  · simp only []
    by_cases hc : isUpperAZ c = true
    · rw [if_pos hc, hc, Bool.true_and]
      rcases hes : extSearch r 80 with _ | ⟨g, L⟩
      · have hnone : (extSearch r 80).isSome = false := by rw [hes]; rfl
        simp only []
        rw [Bool.eq_iff_iff]
        constructor
        · intro habs; exact absurd habs (by simp)
        · intro hany
          rw [List.any_eq_true] at hany
          rcases hany with ⟨k0, hk0, hcond⟩
          rw [List.mem_range] at hk0
          simp only [Bool.and_eq_true] at hcond
          have : (extSearch r 80).isSome = true := by
            rw [extSearch_isSome_iff]
            exact ⟨k0 + 1, by omega, by omega,
              by have := hcond.1.1; simp only [decide_eq_true_eq] at this; omega,
              hcond.1.2, hcond.2⟩
          rw [this] at hnone
          exact Bool.noConfusion hnone
      · have hsome : (extSearch r 80).isSome = true := by rw [hes]; rfl
        simp only []
        rw [Bool.eq_iff_iff]
        constructor
        · rintro -
          rcases (extSearch_isSome_iff r 80).mp hsome with ⟨k, hk1, hkb, hkl, hall, hws⟩
          rw [List.any_eq_true]
          rcases k with _ | k0
          · omega
          · refine ⟨k0, by rw [List.mem_range]; omega, ?_⟩
            simp only [Bool.and_eq_true]
            exact ⟨⟨by simp only [decide_eq_true_eq]; omega, hall⟩, hws⟩
        · rintro -; rfl
    · rw [if_neg hc]
      simp only [hc, Bool.false_and]
      rfl

/-- Out of range, the scanner cannot match. -/
theorem matchSection_out_of_range {cs : List Char} {p : Nat}
    (h : cs.length ≤ p) : matchSection (cs.drop p) = none := by
  rw [List.drop_eq_nil_of_le h]
  rfl

theorem scanSections_sound (cs : List Char) (fuel : Nat) :
    ∀ pos, ∀ e ∈ scanSections cs pos fuel,
      pos ≤ e.2 ∧ ∃ g L, matchSection (cs.drop e.2) = some (g, L) ∧
        e.1 = stripStr (String.mk g) := by
  induction fuel with
  | zero => intro pos e he; exact absurd he (by simp [scanSections])
  | succ fuel ih =>
    intro pos e he
    unfold scanSections at he
    rcases hm : matchSection (cs.drop pos) with _ | ⟨g, L⟩
    · rw [hm] at he
      rcases ih (pos + 1) e he with ⟨hle, hrest⟩
      exact ⟨by omega, hrest⟩
    · rw [hm] at he
      simp only [List.mem_cons] at he
      rcases he with rfl | he

      · exact ⟨le_refl pos, g, L, by rw [hm], rfl⟩
      · rcases ih (pos + L) e he with ⟨hle, hrest⟩
        exact ⟨by omega, hrest⟩

theorem scanSections_nil_iff (cs : List Char) (fuel : Nat) :
    ∀ pos, (scanSections cs pos fuel = [] ↔
      ∀ j, pos ≤ j → j < pos + fuel → matchSection (cs.drop j) = none) := by
  induction fuel with
  | zero =>
    intro pos
    simp only [scanSections]
    constructor
    · intro _ j h1 h2; omega
    · intro _; trivial
  | succ fuel ih =>
    intro pos
    unfold scanSections
    rcases hm : matchSection (cs.drop pos) with _ | ⟨g, L⟩
    · simp only []
      rw [ih (pos + 1)]
      constructor
      · intro hall j hj1 hj2
        rcases Nat.eq_or_lt_of_le hj1 with rfl | hlt
        · exact hm
        · exact hall j hlt (by omega)
      · intro hall j hj1 hj2
        exact hall j (by omega) (by omega)
    · simp only []
      constructor
      · intro hc; exact List.noConfusion hc
      · intro hall
        have := hall pos (le_refl pos) (by omega)
        rw [hm] at this
        exact Option.noConfusion this

/-- A full-pattern match consumes at least one character. -/
theorem matchSection_len_pos {t g : List Char} {L : Nat}
    (h : matchSection t = some (g, L)) : 1 ≤ L := by
  rcases t with _ | ⟨c, r⟩
  · exact absurd h (by simp [matchSection])
  · unfold matchSection at h
    simp only [] at h
    by_cases hc : isUpperAZ c = true
    · rw [if_pos hc] at h
      rcases hes : extSearch r 80 with _ | ⟨g', L'⟩
      · rw [hes] at h
        exact absurd h (by simp)
      · rw [hes] at h
        simp only [] at h
        have hinj := Option.some.inj h
        have hL := congrArg Prod.snd hinj
        simp only [] at hL
        omega
    · rw [if_neg hc] at h
      exact absurd h (by simp)

/-- A matching offset cannot lie past the end of the text. -/
theorem amendedMatchAt_lt {cs : List Char} {p : Nat}
    (h : amendedMatchAt cs p = true) : p < cs.length := by
  by_contra hge
  unfold amendedMatchAt at h
  rw [List.drop_eq_nil_of_le (by omega)] at h
  exact Bool.noConfusion h

/-- Completeness of the `finditer` scan: every matching offset in range is
either reported or lies strictly inside the span of a reported match. -/
theorem scanSections_complete (cs : List Char) :
    ∀ fuel pos p, pos ≤ p → p < pos + fuel →
      (matchSection (cs.drop p)).isSome = true →
      ∃ e ∈ scanSections cs pos fuel, ∃ g L,
        matchSection (cs.drop e.2) = some (g, L) ∧ e.2 ≤ p ∧ p < e.2 + L := by
  intro fuel
  induction fuel with
  | zero => intro pos p h1 h2 _; omega
  | succ fuel ih =>
    intro pos p h1 h2 hp
    unfold scanSections
    rcases hm : matchSection (cs.drop pos) with _ | ⟨g, L⟩
    · rcases Nat.eq_or_lt_of_le h1 with rfl | hlt
      · rw [hm] at hp
        exact absurd hp (by simp)
      · rcases ih (pos + 1) p (by omega) (by omega) hp with ⟨e, he, hrest⟩
        exact ⟨e, he, hrest⟩
    · by_cases hpL : p < pos + L
      · refine ⟨(stripStr (String.mk g), pos), ?_, g, L, hm, h1, hpL⟩
        exact List.mem_cons_self _ _
      · have hL1 := matchSection_len_pos hm
        rcases ih (pos + L) p (by omega) (by omega) hp with ⟨e, he, hrest⟩
        exact ⟨e, List.mem_cons_of_mem _ he, hrest⟩

/-- The fixed summary markers ending a transaction section. -/
def summary_keywords : List String :=
  ["FEES", "INTEREST CHARGED", "ACCOUNT SUMMARY", "PAYMENT INFORMATION",
   "LATE FEE", "TOTAL CREDIT", "TOTAL DEBIT", "ABOUT TRAILING INTEREST"]

/-- Case-insensitive ASCII literal match (`re.IGNORECASE`). -/
def icIsPrefixOf : List Char → List Char → Bool
  | [], _ => true
  | _ :: _, [] => false
  | k :: ks, c :: cs => (k.toUpper == c.toUpper) && icIsPrefixOf ks cs

/-- `^` under `re.MULTILINE` inside the sliced text: offset 0 (slice start)
or immediately after a newline. -/
def lineStart (t : List Char) (m : Nat) : Bool :=
  match m with
  | 0 => true
  | k + 1 => t[k]? == some '\n'

/-- Match of `^\s*keyword` (IGNORECASE | MULTILINE) at offset `m` of the
sliced text `t`: a line start, greedy whitespace (which may span blank
lines), then the keyword. -/
def kwMatchAt (t : List Char) (kw : String) (m : Nat) : Bool :=
  lineStart t m && icIsPrefixOf kw.data ((t.drop m).dropWhile pyWs)

/-- `re.search(r"^\s*" + keyword, text_after_target, ...)`: leftmost match
offset for a single keyword. -/
def firstKwPos (t : List Char) (kw : String) : Option Nat :=
  scanFirst (fun m => if kwMatchAt t kw m then some m else none) 0 (t.length + 1)

/-- Body of the `summary_pos` loop: when keyword search produced a match at
relative offset `m`, the absolute position `p + m` replaces the running
value when that is still the `-1` sentinel or larger. -/
def sentStep (p : Nat) (s : Int) (o : Option Nat) : Int :=
  match o with
  | none => s
  | some m => if s = -1 ∨ ((p : Int) + m) < s then (p : Int) + m else s

/-- The `summary_pos` loop of the extractor: per keyword, take the first
match, convert to an absolute offset, and keep the running minimum with the
`-1` sentinel. -/
def summaryPosLoop (t : List Char) (p : Nat) : Int :=
  summary_keywords.foldl (fun s kw => sentStep p s (firstKwPos t kw)) (-1)

/-- `next((q for q in sorted(positions) if q > target_pos), None)`. -/
def nextCardholderPos (sections : List (String × Nat)) (p : Nat) : Option Nat :=
  (List.insertionSort (fun a b => a ≤ b) (sections.map Prod.snd)).find?
    (fun q => p < q)

/-- The section end offset `next_pos` computed by the extractor: candidates
`[next_cardholder_pos, summary_pos]`, drop the absent one, keep those
strictly past the section start, and take the minimum — end of document when
none survive. -/
def sectionEnd (cs : List Char) (sections : List (String × Nat)) (p : Nat) : Nat :=
  match (((match nextCardholderPos sections p with
           | some q => [(q : Int)]
           | none => []) ++ [summaryPosLoop (cs.drop p) p]).filter
          (fun a => (p : Int) < a)).min? with
  | some m => m.toNat
  | none => cs.length

/-- Some marker matches at offset `m` of the sliced text. -/
def anyKwMatchAt (t : List Char) (m : Nat) : Bool :=
  summary_keywords.any (fun kw => kwMatchAt t kw m)

/-- Earliest marker-line offset in the sliced text, the slice start itself
included. -/
def minAnyKw (t : List Char) : Option Nat :=
  ((List.range (t.length + 1)).filter (fun m => anyKwMatchAt t m)).min?

/-- Amended spec-side boundary: minimum of (a) the smallest section offset
strictly past the start, (b) the earliest marker-line offset from the
section start onward — kept only when strictly past the start — and (c) end
of document when neither exists. -/
def sectionEndSpec (cs : List Char) (sections : List (String × Nat)) (p : Nat) : Nat :=
  match (((match ((sections.map Prod.snd).filter (fun q => p < q)).min? with
           | some q => [q]
           | none => []) ++
          (match (match minAnyKw (cs.drop p) with
                  | some m => if 1 ≤ m then some (p + m) else none
                  | none => none) with
           | some a => [a]
           | none => []))).min? with
  | some m => m
  | none => cs.length

/-- The frozen claim's boundary: clause (b) is the earliest marker line
strictly after the section start, regardless of a marker at the start
itself. -/
def sectionEndClaim (cs : List Char) (sections : List (String × Nat)) (p : Nat) : Nat :=
  match (((match ((sections.map Prod.snd).filter (fun q => p < q)).min? with
           | some q => [q]
           | none => []) ++
          (match (((List.range ((cs.drop p).length + 1)).filter
                (fun m => 1 ≤ m && anyKwMatchAt (cs.drop p) m)).min?).map (p + ·) with
           | some a => [a]
           | none => []))).min? with
  | some m => m
  | none => cs.length

/-- C8 counterexample: the section anchor itself begins with the marker
`"FEES"` (name `"FEESY A"`), so the code's global earliest marker offset
lands exactly at the section start and is discarded, ignoring the real
`"LATE FEE"` line later; the claim's reading bounds the section at that
later marker line (offset 24), the code runs to end of document (34). -/
theorem extractor_bound_claim_counterexample :
    anyKwMatchAt (("x\nFEESY A Card Ending 1\nLATE FEE\nz").data.drop 2) 22 = true
    ∧ sectionEnd ("x\nFEESY A Card Ending 1\nLATE FEE\nz").data [("FEESY A", 2)] 2 = 34
    ∧ sectionEndClaim ("x\nFEESY A Card Ending 1\nLATE FEE\nz").data [("FEESY A", 2)] 2 = 24
    ∧ sectionEnd ("x\nFEESY A Card Ending 1\nLATE FEE\nz").data [("FEESY A", 2)] 2 ≠
        sectionEndClaim ("x\nFEESY A Card Ending 1\nLATE FEE\nz").data [("FEESY A", 2)] 2 := by
  refine ⟨by decide, by decide, by decide, by decide⟩

/-- A leftmost scan for an indicator function computes the minimum matching
index below the bound. -/
theorem scanFirst_indicator_eq_min_filter (P : Nat → Bool) (n : Nat) :
    scanFirst (fun m => if P m then some m else none) 0 n =
      ((List.range n).filter P).min? := by
  rcases hs : scanFirst (fun m => if P m then some m else none) 0 n with _ | x
  · have hall := (scanFirst_eq_none_iff (fun m => if P m then some m else none) 0 n).mp hs
    have hnil : (List.range n).filter P = [] := by
      rw [List.filter_eq_nil_iff]
      intro a ha
      rw [List.mem_range] at ha
      have := hall a (by omega) (by omega)
      by_cases hp : P a = true
      · rw [if_pos hp] at this
        exact absurd this (by simp)
      · intro hc
        exact hp hc
    rw [hnil]
    rfl
  · rcases scanFirst_eq_some hs with ⟨j, -, hjn, hfj, hfirst⟩
    have hPx : P j = true ∧ j = x := by
      by_cases hp : P j = true
      · rw [if_pos hp] at hfj
        exact ⟨hp, Option.some.inj hfj⟩
      · rw [if_neg hp] at hfj
        exact absurd hfj (by simp)
    rcases hPx with ⟨hPj, rfl⟩
    symm
    rw [List.min?_eq_some_iff']
    constructor
    · rw [List.mem_filter, List.mem_range]
      exact ⟨by omega, hPj⟩
    · intro b hb
      rw [List.mem_filter, List.mem_range] at hb
      by_contra hlt
      have := hfirst b (by omega) (by omega)
      rw [if_pos hb.2] at this
      exact Option.noConfusion this

/-- `firstKwPos` computes the minimum matching offset of its keyword. -/
theorem firstKwPos_eq_min (t : List Char) (kw : String) :
    firstKwPos t kw =
      ((List.range (t.length + 1)).filter (fun m => kwMatchAt t kw m)).min? :=
  scanFirst_indicator_eq_min_filter (fun m => kwMatchAt t kw m) (t.length + 1)

/-- `min?` only depends on the multiset of elements. -/
theorem min?_congr_perm {l l' : List Nat} (h : List.Perm l l') :
    l.min? = l'.min? := by
  rcases hm : l'.min? with _ | a
  · rw [List.min?_eq_none_iff] at hm ⊢
    rw [hm] at h
    exact h.eq_nil
  · rw [List.min?_eq_some_iff'] at hm ⊢
    exact ⟨h.mem_iff.mpr hm.1, fun b hb => hm.2 b (h.mem_iff.mp hb)⟩

/-- On an ascending list, the first element past `p` is the least element
past `p`. -/
theorem sorted_find?_gt (p : Nat) :
    ∀ l : List Nat, List.Sorted (· ≤ ·) l →
      l.find? (fun q => p < q) = (l.filter (fun q => p < q)).min?
  | [], _ => rfl
  | a :: t, hl => by
    have ha : ∀ x ∈ t, a ≤ x := fun x hx => (List.sorted_cons.mp hl).1 x hx
    have ht : List.Sorted (· ≤ ·) t := (List.sorted_cons.mp hl).2
    by_cases hpa : p < a
    · rw [List.find?_cons_of_pos _ (by simpa using hpa),
        List.filter_cons_of_pos (by simpa using hpa)]
      symm
      rw [List.min?_eq_some_iff']
      refine ⟨List.mem_cons_self a _, ?_⟩
      intro b hb
      rcases List.mem_cons.mp hb with rfl | hb
      · exact Nat.le_refl _
      · exact ha b (List.mem_filter.mp hb).1
    · rw [List.find?_cons_of_neg _ (by simpa using hpa),
        List.filter_cons_of_neg (by simpa using hpa)]
      exact sorted_find?_gt p t ht

/-- The code's next-cardholder offset is the least section offset strictly
past the target. -/
theorem nextCardholderPos_eq (sections : List (String × Nat)) (p : Nat) :
    nextCardholderPos sections p =
      ((sections.map Prod.snd).filter (fun q => p < q)).min? := by
  unfold nextCardholderPos
  rw [sorted_find?_gt p _ (List.sorted_insertionSort _ _)]
  exact min?_congr_perm ((List.perm_insertionSort _ _).filter _)

/-- Combine two optional candidate offsets by minimum. -/
def optMinN : Option Nat → Option Nat → Option Nat
  | none, b => b
  | some x, none => some x
  | some x, some y => some (min x y)

theorem optMinN_none_right (s : Option Nat) : optMinN s none = s := by
  cases s <;> rfl

theorem foldl_optMinN_shift (l : List (Option Nat)) :
    ∀ s, l.foldl optMinN s = optMinN s (l.foldl optMinN none) := by
  induction l with
  | nil =>
    intro s
    rw [List.foldl_nil, List.foldl_nil, optMinN_none_right]
  | cons o l ih =>
    intro s
    rw [List.foldl_cons, List.foldl_cons, ih (optMinN s o), ih (optMinN none o)]
    have hassoc : ∀ a b c : Option Nat,
        optMinN (optMinN a b) c = optMinN a (optMinN b c) := by
      intro a b c
      cases a <;> cases b <;> cases c <;> simp [optMinN, Nat.min_assoc]
    have hnone : optMinN none o = o := rfl
    rw [hnone, hassoc]

/-- The sentinel fold computes the minimum of the present candidates. -/
theorem foldl_optMinN_eq_min? (l : List (Option Nat)) :
    l.foldl optMinN none = l.reduceOption.min? := by
  induction l with
  | nil => rfl
  | cons o l ih =>
    rw [List.foldl_cons, foldl_optMinN_shift l, ih]
    cases o with
    | none => rw [List.reduceOption_cons_of_none]; rfl
    | some x =>
      rw [List.reduceOption_cons_of_some, List.min?_cons]
      rcases l.reduceOption.min? with _ | y
      · rfl
      · rfl

theorem sentStep_rep (p : Nat) (s o : Option Nat) :
    sentStep p (match s with | none => (-1 : Int) | some m => (p : Int) + m) o =
      (match optMinN s o with | none => (-1 : Int) | some m => (p : Int) + m) := by
  cases s with
  | none =>
    cases o with
    | none => rfl
    | some m =>
      show (if (-1 : Int) = -1 ∨ ((p : Int) + m) < -1 then (p : Int) + m else -1) =
        (p : Int) + m
      rw [if_pos (Or.inl rfl)]
  | some v =>
    cases o with
    | none => rfl
    | some m =>
      show (if (p : Int) + v = -1 ∨ ((p : Int) + m) < (p : Int) + v then (p : Int) + m
          else (p : Int) + v) = (p : Int) + (min v m : Nat)
      by_cases hmv : m < v
      · rw [if_pos (Or.inr (by omega))]
        have : min v m = m := by omega
        rw [this]
      · rw [if_neg (by omega)]
        have : min v m = v := by omega
        rw [this]

theorem sentRep_fold (p : Nat) (l : List (Option Nat)) :
    ∀ s : Option Nat,
      l.foldl (sentStep p)
        (match s with | none => (-1 : Int) | some m => (p : Int) + m) =
      (match l.foldl optMinN s with | none => (-1 : Int) | some m => (p : Int) + m) := by
  induction l with
  | nil => intro s; rfl
  | cons o l ih =>
    intro s
    rw [List.foldl_cons, List.foldl_cons, sentStep_rep p s o]
    exact ih (optMinN s o)

/-- Minimum over keywords of each keyword's first match equals the first
offset at which any keyword matches. -/
theorem reduceMin_first_eq_minAny (t : List Char) (kws : List String) :
    ((kws.map (firstKwPos t)).reduceOption).min? =
      ((List.range (t.length + 1)).filter
        (fun m => kws.any (fun kw => kwMatchAt t kw m))).min? := by
  rcases h : ((List.range (t.length + 1)).filter
      (fun m => kws.any (fun kw => kwMatchAt t kw m))).min? with _ | v
  · rw [List.min?_eq_none_iff] at h ⊢
    rw [List.eq_nil_iff_forall_not_mem]
    intro a ha
    rw [List.reduceOption_mem_iff, List.mem_map] at ha
    rcases ha with ⟨kw, hkw, hfirst⟩
    rw [firstKwPos_eq_min, List.min?_eq_some_iff'] at hfirst
    rcases hfirst with ⟨hmem, -⟩
    rw [List.mem_filter] at hmem
    have hany : a ∈ (List.range (t.length + 1)).filter
        (fun m => kws.any (fun kw => kwMatchAt t kw m)) := by
      rw [List.mem_filter]
      refine ⟨hmem.1, ?_⟩
      rw [List.any_eq_true]
      exact ⟨kw, hkw, hmem.2⟩
    rw [h] at hany
    exact absurd hany (List.not_mem_nil a)
  · rw [List.min?_eq_some_iff'] at h
    rcases h with ⟨hvmem, hvle⟩
    rw [List.mem_filter, List.mem_range] at hvmem
    rcases List.any_eq_true.mp hvmem.2 with ⟨kw₀, hkw₀, hmatch₀⟩
    rw [List.min?_eq_some_iff']
    constructor
    · rw [List.reduceOption_mem_iff, List.mem_map]
      refine ⟨kw₀, hkw₀, ?_⟩
      rw [firstKwPos_eq_min]
      rcases h₀ : ((List.range (t.length + 1)).filter
          (fun m => kwMatchAt t kw₀ m)).min? with _ | v₀
      · rw [List.min?_eq_none_iff, List.eq_nil_iff_forall_not_mem] at h₀
        exact absurd (by
          rw [List.mem_filter, List.mem_range]
          exact ⟨hvmem.1, hmatch₀⟩) (h₀ v)
      · rw [List.min?_eq_some_iff'] at h₀
        rcases h₀ with ⟨h₀mem, h₀le⟩
        rw [List.mem_filter] at h₀mem
        have hv₀v : v₀ ≤ v := h₀le v (by
          rw [List.mem_filter, List.mem_range]
          exact ⟨hvmem.1, hmatch₀⟩)
        have hvv₀ : v ≤ v₀ := hvle v₀ (by
          rw [List.mem_filter]
          refine ⟨h₀mem.1, ?_⟩
          rw [List.any_eq_true]
          exact ⟨kw₀, hkw₀, h₀mem.2⟩)
        congr 1
        omega
    · intro b hb
      rw [List.reduceOption_mem_iff, List.mem_map] at hb
      rcases hb with ⟨kw₁, hkw₁, hfirst₁⟩
      rw [firstKwPos_eq_min, List.min?_eq_some_iff'] at hfirst₁
      rcases hfirst₁ with ⟨h₁mem, -⟩
      rw [List.mem_filter] at h₁mem
      exact hvle b (by
        rw [List.mem_filter]
        refine ⟨h₁mem.1, ?_⟩
        rw [List.any_eq_true]
        exact ⟨kw₁, hkw₁, h₁mem.2⟩)

/-- The `-1`-sentinel keyword loop equals the earliest any-keyword match,
shifted to an absolute offset. -/
theorem summaryPosLoop_eq (t : List Char) (p : Nat) :
    summaryPosLoop t p =
      (match minAnyKw t with
       | none => (-1 : Int)
       | some m => (p : Int) + m) := by
  unfold summaryPosLoop
  rw [← List.foldl_map (firstKwPos t) (sentStep p) summary_keywords (-1)]
  have h := sentRep_fold p (summary_keywords.map (firstKwPos t)) none
  simp only [] at h
  rw [h, foldl_optMinN_eq_min?, reduceMin_first_eq_minAny]
  rfl

/-- C8 amended: the scanned span ends at the minimum of (a) the smallest
section offset strictly past the target's, and (b) the earliest offset, from
the section start onward, of a line beginning (after leading whitespace,
case-insensitively) with a summary marker — but clause (b) is dropped
entirely when that earliest offset is the section start itself, even if
other marker lines occur later; end of document when neither survives.  In
particular a surviving marker line before the next cardholder's anchor
truncates the section at the marker. -/
theorem extractor_bound_minimum (cs : List Char) (sections : List (String × Nat)) (p : Nat) :
    sectionEnd cs sections p = sectionEndSpec cs sections p := by
  unfold sectionEnd sectionEndSpec
  rw [nextCardholderPos_eq, summaryPosLoop_eq]
  rcases hn : ((sections.map Prod.snd).filter (fun q => p < q)).min? with _ | q
  · rcases ha : minAnyKw (cs.drop p) with _ | m
    · rw [List.nil_append,
        List.filter_cons_of_neg (by
          show decide ((p : Int) < -1) = true → False
          simp only [decide_eq_true_eq]
          omega),
        List.filter_nil]
      rfl
    · by_cases hm : 1 ≤ m
      · rw [List.nil_append,
          List.filter_cons_of_pos (by
            show decide ((p : Int) < (p : Int) + (m : Int)) = true
            simp only [decide_eq_true_eq]
            omega),
          List.filter_nil]
        simp only []
        rw [if_pos hm]
        show ((p : Int) + (m : Int)).toNat = p + m
        omega
      · rw [List.nil_append,
          List.filter_cons_of_neg (by
            show decide ((p : Int) < (p : Int) + (m : Int)) = true → False
            simp only [decide_eq_true_eq]
            omega),
          List.filter_nil]
        simp only []
        rw [if_neg hm]
        rfl
  · have hpq : p < q := by
      have hq := (List.min?_eq_some_iff'.mp hn).1
      rw [List.mem_filter] at hq
      simpa using hq.2
    rcases ha : minAnyKw (cs.drop p) with _ | m
    · rw [List.cons_append, List.nil_append,
        List.filter_cons_of_pos (by
          show decide ((p : Int) < (q : Int)) = true
          simp only [decide_eq_true_eq]
          omega),
        List.filter_cons_of_neg (by
          show decide ((p : Int) < -1) = true → False
          simp only [decide_eq_true_eq]
          omega),
        List.filter_nil]
      show ((q : Int)).toNat = q
      omega
    · by_cases hm : 1 ≤ m
      · rw [List.cons_append, List.nil_append,
          List.filter_cons_of_pos (by
            show decide ((p : Int) < (q : Int)) = true
            simp only [decide_eq_true_eq]
            omega),
          List.filter_cons_of_pos (by
            show decide ((p : Int) < (p : Int) + (m : Int)) = true
            simp only [decide_eq_true_eq]
            omega),
          List.filter_nil]
        simp only []
        rw [if_pos hm]
        show (min ((q : Int)) ((p : Int) + (m : Int))).toNat = min q (p + m)
        omega
      · rw [List.cons_append, List.nil_append,
          List.filter_cons_of_pos (by
            show decide ((p : Int) < (q : Int)) = true
            simp only [decide_eq_true_eq]
            omega),
          List.filter_cons_of_neg (by
            show decide ((p : Int) < (p : Int) + (m : Int)) = true → False
            simp only [decide_eq_true_eq]
            omega),
          List.filter_nil]
        simp only []
        rw [if_neg hm]
        show ((q : Int)).toNat = q
        omega

/-! ### Transaction extractor: chunk parsing
(`extract_transactions_for_name`, app.py lines 163-176) -/

/-- The glyph/bullet delimiter class of the chunk split, in source order
(the class lists `⧫` twice). -/
def delimChars : List Char :=
  ['◊', '⬧', '⬥', '◆', '◇', '⧫', '⬦', '⬩',
   '|', '⧫']

def isDelim (c : Char) : Bool := delimChars.contains c

/-- `re.split(r"[...]+", s)`: split on runs of delimiter characters,
keeping empty chunks at the edges.  `acc` is the current chunk reversed;
`inRun` records that the previous character was a delimiter. -/
def splitDelimsAux : List Char → List Char → Bool → List (List Char)
  | [], acc, _ => [acc.reverse]
  | c :: t, acc, inRun =>
    if isDelim c then
      if inRun then splitDelimsAux t acc true
      else acc.reverse :: splitDelimsAux t [] true
    else splitDelimsAux t (c :: acc) false

def splitDelims (cs : List Char) : List (List Char) := splitDelimsAux cs [] false

/-- The date pattern `\d{2}/\d{2}/\d{2}` at the head of `t`. -/
def dateShape (t : List Char) : Bool :=
  match t with
  | a :: b :: s1 :: d :: e :: s2 :: g :: h :: _ =>
    a.isDigit && b.isDigit && s1 = '/' && d.isDigit && e.isDigit && s2 = '/' &&
      g.isDigit && h.isDigit
  | _ => false

/-- `re.search(r"(\d{2}/\d{2}/\d{2})", ch)`: leftmost date offset. -/
def findDatePos (c : List Char) : Option Nat :=
  scanFirst (fun i => if dateShape (c.drop i) then some i else none) 0 (c.length + 1)

/-- The `[0-9,]` class of the amount pattern. -/
def amtChar (ch : Char) : Bool := ch.isDigit || ch = ','

/-- Match of `\$([0-9,]+\.[0-9]{2})` at the head of `t`: the dollar sign, a
nonempty greedy digit/comma run, a dot, two digits.  Returns the full match
length. -/
def amtLenAt (t : List Char) : Option Nat :=
  match t with
  | c :: r =>
    if c = '$' then
      if (r.takeWhile amtChar).length != 0 then
        match r.dropWhile amtChar with
        | p :: d1 :: d2 :: _ =>
          if p = '.' && d1.isDigit && d2.isDigit then
            some (1 + (r.takeWhile amtChar).length + 3)
          else none
        | _ => none
      else none
    else none
  | [] => none

/-- Decimal value of a digit list. -/
def digitsToNat (ds : List Char) : Nat := ds.foldl (fun n c => n * 10 + (c.toNat - 48)) 0

/-- `float(m.group(1).replace(',', ''))` for an amount match at the head of
`t`: integer part from the digit/comma run with commas removed, plus the two
cent digits. -/
def amtValAt (t : List Char) : ℚ :=
  match t with
  | _ :: r =>
    (digitsToNat ((r.takeWhile amtChar).filter Char.isDigit) : ℚ) +
      (digitsToNat (((r.dropWhile amtChar).drop 1).take 2) : ℚ) / 100
  | [] => 0

/-- `re.finditer` for the amount pattern: leftmost matches, resuming after
each match end; collects the match start offsets. -/
def amtScan (c : List Char) : Nat → Nat → List Nat
  | _, 0 => []
  | i, fuel + 1 =>
    match amtLenAt (c.drop i) with
    | some L => i :: amtScan c (i + L) fuel
    | none => amtScan c (i + 1) fuel

def amtPositions (c : List Char) : List Nat := amtScan c 0 (c.length + 1)

/-- Parse one chunk of the bounded section text: collapse whitespace, find
the first date and all amounts; with both present, the merchant is the
trimmed text strictly between the date match and the last amount match, the
amount is the last match's value, and a merchant starting (case-insensitively)
with `"CARD ENDING"` discards the chunk. -/
def parseChunk (chunk : List Char) : Option PdfTxn :=
  match findDatePos (collapseWs chunk) with
  | none => none
  | some i =>
    match (amtPositions (collapseWs chunk)).getLast? with
    | none => none
    | some j =>
      if ("CARD ENDING".data).isPrefixOf
          ((stripChars (((collapseWs chunk).take j).drop (i + 8))).map Char.toUpper) then
        none
      else
        some { date := String.mk (((collapseWs chunk).drop i).take 8),
               merchant := String.mk (stripChars (((collapseWs chunk).take j).drop (i + 8))),
               amount := amtValAt ((collapseWs chunk).drop j) }

/-- `extract_transactions_for_name(pdf_text, target_name, sections)`. -/
def extract_transactions_for_name (text : String) (targetName : String)
    (sections : List (String × Nat)) : List PdfTxn :=
  match sections.find? (fun e => e.1 == targetName) with
  | none => []
  | some e =>
    if e.2 = 0 then []
    else
      (splitDelims ((text.data.take (sectionEnd text.data sections e.2)).drop e.2)).filterMap
        parseChunk

/-- Spec-side: the date pattern occurs at offset `i` of the collapsed chunk. -/
def dateAt (c : List Char) (i : Nat) : Bool := dateShape (c.drop i)

/-- Spec-side: an amount match starts at offset `j` of the collapsed chunk. -/
def amtAt (c : List Char) (j : Nat) : Bool := (amtLenAt (c.drop j)).isSome

theorem dateAt_oob {c : List Char} {i : Nat} (h : c.length ≤ i) :
    dateAt c i = false := by
  unfold dateAt
  rw [List.drop_eq_nil_of_le h]
  rfl

theorem amtAt_oob {c : List Char} {j : Nat} (h : c.length ≤ j) :
    amtAt c j = false := by
  unfold amtAt
  rw [List.drop_eq_nil_of_le h]
  rfl

theorem findDatePos_none_iff (c : List Char) :
    findDatePos c = none ↔ ∀ i, dateAt c i = false := by
  unfold findDatePos
  rw [scanFirst_eq_none_iff]
  constructor
  · intro hall i
    by_cases hi : i < c.length + 1
    · have := hall i (by omega) (by omega)
      by_cases hd : dateShape (c.drop i) = true
      · rw [if_pos hd] at this
        exact absurd this (by simp)
      · unfold dateAt
        exact Bool.not_eq_true _ ▸ hd
    · exact dateAt_oob (by omega)
  · intro hall j _ _
    rw [if_neg]
    have := hall j
    unfold dateAt at this
    rw [this]
    exact Bool.noConfusion

theorem findDatePos_some {c : List Char} {i : Nat} (h : findDatePos c = some i) :
    dateAt c i = true ∧ ∀ i' < i, dateAt c i' = false := by
  rcases scanFirst_eq_some h with ⟨j, -, -, hfj, hfirst⟩
  have hji : dateShape (c.drop j) = true ∧ j = i := by
    by_cases hd : dateShape (c.drop j) = true
    · rw [if_pos hd] at hfj
      exact ⟨hd, Option.some.inj hfj⟩
    · rw [if_neg hd] at hfj
      exact absurd hfj (by simp)
  rcases hji with ⟨hd, rfl⟩
  refine ⟨hd, ?_⟩
  intro i' hi'
  have := hfirst i' (by omega) hi'
  by_cases hd' : dateShape (c.drop i') = true
  · rw [if_pos hd'] at this
    exact absurd this (by simp)
  · unfold dateAt
    exact Bool.not_eq_true _ ▸ hd'

theorem amtLenAt_not_dollar {t : List Char} (h : ∀ x, t.head? = some x → x ≠ '$') :
    amtLenAt t = none := by
  rcases t with _ | ⟨c, r⟩
  · rfl
  · unfold amtLenAt
    simp only []
    rw [if_neg (h c rfl)]

theorem amtChar_ne_dollar {x : Char} (h : amtChar x = true) : x ≠ '$' := by
  intro hc
  rw [hc] at h
  exact absurd h (by decide)

/-- An amount match is at least four characters long. -/
theorem amtLenAt_shape {t : List Char} {L : Nat} (h : amtLenAt t = some L) :
    4 ≤ L := by
  rcases t with _ | ⟨c, r⟩
  · exact absurd h (by simp [amtLenAt])
  · unfold amtLenAt at h
    simp only [] at h
    by_cases hc : c = '$'
    · rw [if_pos hc] at h
      by_cases hrun : ((r.takeWhile amtChar).length != 0) = true
      · rw [if_pos hrun] at h
        rcases hrest : r.dropWhile amtChar with _ | ⟨p, rest1⟩
        · rw [hrest] at h
          exact absurd h (by simp)
        · rcases rest1 with _ | ⟨d1, rest2⟩
          · rw [hrest] at h
            exact absurd h (by simp)
          · rcases rest2 with _ | ⟨d2, rest3⟩
            · rw [hrest] at h
              exact absurd h (by simp)
            · rw [hrest] at h
              simp only [] at h
              by_cases hpd : (decide (p = '.') && d1.isDigit && d2.isDigit) = true
              · rw [if_pos hpd] at h
                have := Option.some.inj h
                omega
              · rw [if_neg hpd] at h
                exact absurd h (by simp)
      · rw [if_neg hrun] at h
        exact absurd h (by simp)
    · rw [if_neg hc] at h
      exact absurd h (by simp)

/-- Inside the span of an amount match there is no dollar sign, hence no
other amount match starts there. -/
theorem amt_no_overlap {t : List Char} {L : Nat} (h : amtLenAt t = some L) :
    ∀ d, 1 ≤ d → d < L → amtLenAt (t.drop d) = none := by
  rcases t with _ | ⟨c, r⟩
  · exact absurd h (by simp [amtLenAt])
  · unfold amtLenAt at h
    simp only [] at h
    by_cases hc : c = '$'
    · rw [if_pos hc] at h
      by_cases hrun : ((r.takeWhile amtChar).length != 0) = true
      · rw [if_pos hrun] at h
        rcases hrest : r.dropWhile amtChar with _ | ⟨p, rest1⟩
        · rw [hrest] at h
          exact absurd h (by simp)
        · rcases rest1 with _ | ⟨d1, rest2⟩
          · rw [hrest] at h
            exact absurd h (by simp)
          · rcases rest2 with _ | ⟨d2, rest3⟩
            · rw [hrest] at h
              exact absurd h (by simp)
            · rw [hrest] at h
              simp only [] at h
              by_cases hpd : (decide (p = '.') && d1.isDigit && d2.isDigit) = true
              · rw [if_pos hpd] at h
                have hL : L = 1 + (r.takeWhile amtChar).length + 3 :=
                  (Option.some.inj h).symm
                simp only [Bool.and_eq_true, decide_eq_true_eq] at hpd
                intro d hd1 hdL
                set n := (r.takeWhile amtChar).length with hn
                have hdrop : ('$' :: r).drop d = r.drop (d - 1) := by
                  rcases d with _ | d'
                  · omega
                  · simp [List.drop_succ_cons]
                rw [hc]
                rw [hdrop]
                have hsplit : r = r.takeWhile amtChar ++ (p :: d1 :: d2 :: rest3) := by
                  rw [← hrest, List.takeWhile_append_dropWhile]
                apply amtLenAt_not_dollar
                intro x hx
                rw [List.head?_drop] at hx
                by_cases hdn : d - 1 < n
                · rw [hsplit, List.getElem?_append_left (by omega : d - 1 <
                    (r.takeWhile amtChar).length)] at hx
                  have hmem : x ∈ r.takeWhile amtChar := List.getElem?_mem hx
                  exact amtChar_ne_dollar (List.mem_takeWhile_imp hmem)
                · have hge : n ≤ d - 1 := by omega
                  have hlt : d - 1 < n + 3 := by omega
                  have hx' : (p :: d1 :: d2 :: rest3)[d - 1 - n]? = some x := by
                    rw [hsplit] at hx
                    rw [List.getElem?_append_right (by omega :
                      (r.takeWhile amtChar).length ≤ d - 1)] at hx
                    rw [← hn] at hx
                    exact hx
                  rcases hcase : d - 1 - n with _ | k
                  · rw [hcase] at hx'
                    simp only [List.getElem?_cons_zero, Option.some.injEq] at hx'
                    rw [← hx', hpd.1.1]
                    decide
                  · rcases k with _ | k'
                    · rw [hcase] at hx'
                      simp only [List.getElem?_cons_succ, List.getElem?_cons_zero,
                        Option.some.injEq] at hx'
                      intro hcx
                      rw [hcx] at hx'
                      have := hpd.1.2
                      rw [hx'] at this
                      exact absurd this (by decide)
                    · have hk' : k' = 0 := by omega
                      rw [hcase, hk'] at hx'
                      simp only [List.getElem?_cons_succ, List.getElem?_cons_zero,
                        Option.some.injEq] at hx'
                      intro hcx
                      rw [hcx] at hx'
                      have := hpd.2
                      rw [hx'] at this
                      exact absurd this (by decide)
              · rw [if_neg hpd] at h
                exact absurd h (by simp)
      · rw [if_neg hrun] at h
        exact absurd h (by simp)
    · rw [if_neg hc] at h
      exact absurd h (by simp)

theorem amtScan_sound (c : List Char) :
    ∀ fuel i, ∀ k ∈ amtScan c i fuel, i ≤ k ∧ amtAt c k = true := by
  intro fuel
  induction fuel with
  | zero =>
    intro i k hk
    exact absurd hk (by simp [amtScan])
  | succ fuel ih =>
    intro i k hk
    unfold amtScan at hk
    rcases hm : amtLenAt (c.drop i) with _ | L
    · rw [hm] at hk
      rcases ih (i + 1) k hk with ⟨h1, h2⟩
      exact ⟨by omega, h2⟩
    · rw [hm] at hk
      rcases List.mem_cons.mp hk with rfl | hk
      · refine ⟨le_refl _, ?_⟩
        unfold amtAt
        rw [hm]
        rfl
      · rcases ih (i + L) k hk with ⟨h1, h2⟩
        exact ⟨by omega, h2⟩

theorem amtScan_complete (c : List Char) :
    ∀ fuel i k, i ≤ k → k < i + fuel → amtAt c k = true → k ∈ amtScan c i fuel := by
  intro fuel
  induction fuel with
  | zero => intro i k h1 h2 _; omega
  | succ fuel ih =>
    intro i k h1 h2 hk
    unfold amtScan
    rcases hm : amtLenAt (c.drop i) with _ | L
    · rcases Nat.eq_or_lt_of_le h1 with rfl | hlt
      · unfold amtAt at hk
        rw [hm] at hk
        exact absurd hk (by simp)
      · exact ih (i + 1) k (by omega) (by omega) hk
    · rcases Nat.eq_or_lt_of_le h1 with rfl | hlt
      · exact List.mem_cons_self _ _
      · by_cases hkL : k < i + L
        · exfalso
          have hnone := amt_no_overlap hm (k - i) (by omega) (by omega)
          rw [List.drop_drop] at hnone
          have heq : i + (k - i) = k := by omega
          rw [heq] at hnone
          unfold amtAt at hk
          rw [hnone] at hk
          exact absurd hk (by simp)
        · have hL1 : 1 ≤ L := by
            have := amtLenAt_shape hm
            omega
          refine List.mem_cons_of_mem _ (ih (i + L) k (by omega) (by omega) hk)

theorem amtScan_le_last (c : List Char) :
    ∀ fuel i j, (amtScan c i fuel).getLast? = some j →
      ∀ k ∈ amtScan c i fuel, k ≤ j := by
  intro fuel
  induction fuel with
  | zero =>
    intro i j hj
    exact absurd hj (by simp [amtScan])
  | succ fuel ih =>
    intro i j hj k hk
    unfold amtScan at hj hk
    rcases hm : amtLenAt (c.drop i) with _ | L
    · rw [hm] at hj hk
      exact ih (i + 1) j hj k hk
    · rw [hm] at hj hk
      simp only [] at hj hk
      rcases hr : amtScan c (i + L) fuel with _ | ⟨a, rest⟩
      · rw [hr] at hj hk
        have hji : i = j := by
          simpa [List.getLast?] using hj
        rcases List.mem_cons.mp hk with heq | hk
        · omega
        · exact absurd hk (List.not_mem_nil k)
      · rw [hr] at hj hk
        rw [List.getLast?_cons_cons] at hj
        rcases List.mem_cons.mp hk with heq | hk
        · have hjr : j ∈ amtScan c (i + L) fuel := by
            rw [hr]
            have hge := List.getLast?_eq_getElem? (a :: rest) ▸ hj
            exact List.getElem?_mem hge
          have hsound := (amtScan_sound c fuel (i + L) j hjr).1
          omega
        · exact ih (i + L) j (by rw [hr]; exact hj) k (by rw [hr]; exact hk)

/-- The last `finditer` amount match is exactly the greatest offset at which
an amount match starts. -/
theorem lastAmt_iff (c : List Char) (j : Nat) :
    (amtPositions c).getLast? = some j ↔
      (amtAt c j = true ∧ ∀ k, j < k → amtAt c k = false) := by
  constructor
  · intro hj
    have hjmem : j ∈ amtPositions c := by
      have := List.getLast?_eq_getElem? (amtPositions c) ▸ hj
      exact List.getElem?_mem this
    refine ⟨(amtScan_sound c (c.length + 1) 0 j hjmem).2, ?_⟩
    intro k hk
    by_cases hak : amtAt c k = true
    · exfalso
      have hlen : k < c.length := by
        by_contra hge
        rw [amtAt_oob (by omega)] at hak
        exact Bool.noConfusion hak
      have hkmem : k ∈ amtPositions c :=
        amtScan_complete c (c.length + 1) 0 k (by omega) (by omega) hak
      have := amtScan_le_last c (c.length + 1) 0 j hj k hkmem
      omega
    · exact Bool.not_eq_true _ ▸ hak
  · rintro ⟨hj, hlast⟩
    have hlen : j < c.length := by
      by_contra hge
      rw [amtAt_oob (by omega)] at hj
      exact Bool.noConfusion hj
    have hjmem : j ∈ amtPositions c :=
      amtScan_complete c (c.length + 1) 0 j (by omega) (by omega) hj
    rcases hgl : (amtPositions c).getLast? with _ | j'
    · rw [List.getLast?_eq_none_iff] at hgl
      rw [hgl] at hjmem
      exact absurd hjmem (List.not_mem_nil j)
    · have hj'mem : j' ∈ amtPositions c := by
        have := List.getLast?_eq_getElem? (amtPositions c) ▸ hgl
        exact List.getElem?_mem this
      have hj'amt := (amtScan_sound c (c.length + 1) 0 j' hj'mem).2
      have hle := amtScan_le_last c (c.length + 1) 0 j' hgl j hjmem
      have : ¬ j < j' := by
        intro hlt
        rw [hlast j' hlt] at hj'amt
        exact Bool.noConfusion hj'amt
      have : j' = j := by omega
      rw [this]

theorem amtPositions_nil_iff (c : List Char) :
    amtPositions c = [] ↔ ∀ k, amtAt c k = false := by
  constructor
  · intro hnil k
    by_cases hak : amtAt c k = true
    · exfalso
      have hlen : k < c.length := by
        by_contra hge
        rw [amtAt_oob (by omega)] at hak
        exact Bool.noConfusion hak
      have h2 : k ∈ amtPositions c :=
        amtScan_complete c (c.length + 1) 0 k (by omega) (by omega) hak
      rw [hnil] at h2
      exact absurd h2 (List.not_mem_nil k)
    · exact Bool.not_eq_true _ ▸ hak
  · intro hall
    rcases hs : amtPositions c with _ | ⟨a, rest⟩
    · rfl
    · exfalso
      have : a ∈ amtPositions c := by rw [hs]; exact List.mem_cons_self a rest
      have := (amtScan_sound c (c.length + 1) 0 a this).2
      rw [hall a] at this
      exact Bool.noConfusion this

/-- C9: a chunk of the bounded section text yields a transaction exactly
when its whitespace-collapsed form contains a two-digit date (first match at
offset `i`), at least one dollar amount (last match at offset `j`), and the
whitespace-trimmed text strictly between the end of the date match and the
start of the last amount match does not start, case-insensitively, with
`"CARD ENDING"`; the emitted transaction carries that date, that merchant
text, and the last amount's value; chunks missing a date or an amount are
silently dropped. -/
theorem chunk_parser_behavior (chunk : List Char) :
    ((parseChunk chunk).isSome = true ↔
      ∃ i j, (dateAt (collapseWs chunk) i = true ∧
          ∀ i' < i, dateAt (collapseWs chunk) i' = false) ∧
        (amtAt (collapseWs chunk) j = true ∧
          ∀ k, j < k → amtAt (collapseWs chunk) k = false) ∧
        ("CARD ENDING".data).isPrefixOf
          ((stripChars (((collapseWs chunk).take j).drop (i + 8))).map Char.toUpper)
          = false)
    ∧ (∀ t, parseChunk chunk = some t →
        ∃ i j, (dateAt (collapseWs chunk) i = true ∧
            ∀ i' < i, dateAt (collapseWs chunk) i' = false) ∧
          (amtAt (collapseWs chunk) j = true ∧
            ∀ k, j < k → amtAt (collapseWs chunk) k = false) ∧
          t.date = String.mk (((collapseWs chunk).drop i).take 8) ∧
          t.merchant = String.mk (stripChars (((collapseWs chunk).take j).drop (i + 8))) ∧
          t.amount = amtValAt ((collapseWs chunk).drop j)) := by
  rcases hd : findDatePos (collapseWs chunk) with _ | i
  · have hnodate := (findDatePos_none_iff (collapseWs chunk)).mp hd
    constructor
    · simp only [parseChunk, hd]
      constructor
      · intro habs
        exact absurd habs (by simp)
      · rintro ⟨i, j, ⟨hdi, -⟩, -, -⟩
        rw [hnodate i] at hdi
        exact Bool.noConfusion hdi
    · intro t ht
      simp only [parseChunk, hd] at ht
      exact Option.noConfusion ht
  · rcases ha : (amtPositions (collapseWs chunk)).getLast? with _ | j
    · have hnoamt : ∀ k, amtAt (collapseWs chunk) k = false := by
        rw [← amtPositions_nil_iff]
        rw [← List.getLast?_eq_none_iff]
        exact ha
      constructor
      · simp only [parseChunk, hd, ha]
        constructor
        · intro habs
          exact absurd habs (by simp)
        · rintro ⟨i, j, -, ⟨haj, -⟩, -⟩
          rw [hnoamt j] at haj
          exact Bool.noConfusion haj
      · intro t ht
        simp only [parseChunk, hd, ha] at ht
        exact Option.noConfusion ht
    · rcases findDatePos_some hd with ⟨hdi, hdfirst⟩
      rcases (lastAmt_iff (collapseWs chunk) j).mp ha with ⟨haj, halast⟩
      by_cases hce : ("CARD ENDING".data).isPrefixOf
          ((stripChars (((collapseWs chunk).take j).drop (i + 8))).map Char.toUpper) = true
      · constructor
        · simp only [parseChunk, hd, ha]
          rw [if_pos hce]
          constructor
          · intro habs
            exact absurd habs (by simp)
          · rintro ⟨i', j', ⟨hdi', hdfirst'⟩, ⟨haj', halast'⟩, hce'⟩
            have hii : i' = i := by
              rcases Nat.lt_trichotomy i' i with h | h | h
              · rw [hdfirst i' h] at hdi'
                exact Bool.noConfusion hdi'
              · exact h
              · rw [hdfirst' i h] at hdi
                exact Bool.noConfusion hdi
            have hjj : j' = j := by
              rcases Nat.lt_trichotomy j' j with h | h | h
              · rw [halast' j h] at haj
                exact Bool.noConfusion haj
              · exact h
              · rw [halast j' h] at haj'
                exact Bool.noConfusion haj'
            rw [hii, hjj] at hce'
            rw [hce'] at hce
            exact Bool.noConfusion hce
        · intro t ht
          simp only [parseChunk, hd, ha] at ht
          rw [if_pos hce] at ht
          exact Option.noConfusion ht
      · have hcef : ("CARD ENDING".data).isPrefixOf
            ((stripChars (((collapseWs chunk).take j).drop (i + 8))).map Char.toUpper)
            = false := by
          cases hcc : ("CARD ENDING".data).isPrefixOf
              ((stripChars (((collapseWs chunk).take j).drop (i + 8))).map Char.toUpper)
          · rfl
          · exact absurd hcc hce
        constructor
        · simp only [parseChunk, hd, ha]
          rw [if_neg hce]
          constructor
          · rintro -
            exact ⟨i, j, ⟨hdi, hdfirst⟩, ⟨haj, halast⟩, hcef⟩
          · rintro -
            rfl
        · intro t ht
          simp only [parseChunk, hd, ha] at ht
          rw [if_neg hce] at ht
          have ht' := Option.some.inj ht
          refine ⟨i, j, ⟨hdi, hdfirst⟩, ⟨haj, halast⟩, ?_, ?_, ?_⟩
          · rw [← ht']
          · rw [← ht']
          · rw [← ht']

/-- C9 witness: the success clause instantiated on the chunk
`"  01/02/24  STORE  $12.34 "`, whose collapsed form has its first date at
offset 0 and its last amount match at offset 15. -/
theorem chunk_parser_behavior_witness :
    ∃ i j, (dateAt (collapseWs ("  01/02/24  STORE  $12.34 ".data)) i = true ∧
        ∀ i' < i, dateAt (collapseWs ("  01/02/24  STORE  $12.34 ".data)) i' = false) ∧
      (amtAt (collapseWs ("  01/02/24  STORE  $12.34 ".data)) j = true ∧
        ∀ k, j < k → amtAt (collapseWs ("  01/02/24  STORE  $12.34 ".data)) k = false) ∧
      (PdfTxn.mk "01/02/24" "STORE"
          (amtValAt ((collapseWs ("  01/02/24  STORE  $12.34 ".data)).drop 15))).date
        = String.mk (((collapseWs ("  01/02/24  STORE  $12.34 ".data)).drop i).take 8) ∧
      (PdfTxn.mk "01/02/24" "STORE"
          (amtValAt ((collapseWs ("  01/02/24  STORE  $12.34 ".data)).drop 15))).merchant
        = String.mk (stripChars
            (((collapseWs ("  01/02/24  STORE  $12.34 ".data)).take j).drop (i + 8))) ∧
      (PdfTxn.mk "01/02/24" "STORE"
          (amtValAt ((collapseWs ("  01/02/24  STORE  $12.34 ".data)).drop 15))).amount
        = amtValAt ((collapseWs ("  01/02/24  STORE  $12.34 ".data)).drop j) :=
  (chunk_parser_behavior ("  01/02/24  STORE  $12.34 ".data)).2
    (PdfTxn.mk "01/02/24" "STORE"
      (amtValAt ((collapseWs ("  01/02/24  STORE  $12.34 ".data)).drop 15)))
    (by rfl)

/-- C10: when the first section entry carrying the resolved name records
offset 0 — the anchor at the very start of the document — the extractor
returns the empty list, exactly as it does when the name is absent from the
section list (Python's falsy test `if not target_pos` conflates offset 0
with `None`). -/
theorem extractor_zero_offset_empty (text : String) (targetName : String)
    (sections : List (String × Nat))
    (h : ∀ e, sections.find? (fun x => x.1 == targetName) = some e → e.2 = 0) :
    extract_transactions_for_name text targetName sections = [] := by
  unfold extract_transactions_for_name
  rcases hf : sections.find? (fun x => x.1 == targetName) with _ | e
  · rw [hf]
  · rw [hf]
    simp only []
    rw [if_pos (h e hf)]

/-- C10 witness: a document whose only section anchor sits at offset 0, with
a perfectly parseable transaction line following, still yields no
transactions. -/
theorem extractor_zero_offset_empty_witness :
    extract_transactions_for_name "CARLOS Card Ending 1 01/02/24 STORE $5.00"
      "CARLOS" [("CARLOS", 0)] = [] :=
  extractor_zero_offset_empty "CARLOS Card Ending 1 01/02/24 STORE $5.00"
    "CARLOS" [("CARLOS", 0)]
    (by
      intro e he
      have hval : some ("CARLOS", 0) = some e := by
        rw [← he]
        rfl
      have hmm := Option.some.inj hval
      rw [← hmm])

end ExpenseAgent
